import Mathlib

namespace Collages

/-- Decimal digit test, modelling Python `str.isdigit` at the character level
(code points 48-57, the ASCII digits, which is all the repository's filenames
use). -/
def pyIsDigitChar (c : Char) : Bool := decide (48 ≤ c.toNat ∧ c.toNat ≤ 57)

/-- ASCII lower-casing of one character (code points 65-90 shift up by 32),
modelling Python `str.lower` on the ASCII range used by the repository's
filenames; this is also exactly core `Char.toLower`. -/
def lowerCh (c : Char) : Char :=
  if 65 ≤ c.toNat ∧ c.toNat ≤ 90 then Char.ofNat (c.toNat + 32) else c

/-- Python `str.lower` on a string represented as a character list. -/
def lowerStr (s : List Char) : List Char := s.map lowerCh

/-- Python `str.isdigit`: nonempty and all digits. -/
def pyIsdigit (s : List Char) : Bool := !s.isEmpty && s.all pyIsDigitChar

/-- ASCII whitespace, the characters Python `str.strip()` removes. -/
def isSpaceChar (c : Char) : Bool :=
  c == ' ' || c == '\t' || c == '\n' || c == '\x0d' || c == '\x0b' || c == '\x0c'

/-- Python `str.strip()`: drop whitespace from both ends. -/
def pyStrip (s : List Char) : List Char :=
  ((s.dropWhile isSpaceChar).reverse.dropWhile isSpaceChar).reverse

/-- Model of `os.path.basename`: the part of the path after the last slash. -/
def pyBasename (s : List Char) : List Char :=
  (s.reverse.takeWhile (fun c => !(c == '/'))).reverse

/-- The stem part of `os.path.splitext` applied to a basename: cut at the last
dot, provided some non-dot character precedes that dot (so names consisting of
leading dots keep their full form).  `s.reverse.takeWhile (· != '.')` is the
extension without its dot, read from the right. -/
def pySplitextStem (s : List Char) : List Char :=
  if (s.reverse.takeWhile (fun c => !(c == '.'))).length == s.reverse.length then s
  else if (s.reverse.drop
      ((s.reverse.takeWhile (fun c => !(c == '.'))).length + 1)).all
      (fun c => c == '.') then s
  else (s.reverse.drop
      ((s.reverse.takeWhile (fun c => !(c == '.'))).length + 1)).reverse

/-- The filename stem the scripts parse: basename without its extension. -/
def stemOfPath (p : List Char) : List Char := pySplitextStem (pyBasename p)

/-- Does the stem end with the literal characters `-2`? (Python
`stem.endswith('-2')`.) -/
def endsWithDash2 (st : List Char) : Bool :=
  match st.reverse with
  | c :: d :: _ => c == '2' && d == '-'
  | _ => false

/-- Line 25 of `main.py`: `stem = stem[:-2] if stem.endswith('-2') else stem`. -/
def stripDup2 (st : List Char) : List Char :=
  if endsWithDash2 st then st.take (st.length - 2) else st

/-- Separator characters of the split in `parse_file_info`. -/
def isSepChar (c : Char) : Bool := c == '-' || c == '_'

/-- Prepend a character onto the first field of a field list. -/
def consHead (c : Char) : List (List Char) → List (List Char)
  | [] => [[c]]
  | f :: fs => (c :: f) :: fs

/-- Python `re.split(r'[-_]+', stem)`: split on maximal runs of `-`/`_`,
keeping empty fields at the ends.  The boolean records whether the previous
character was a separator (so that runs collapse). -/
def splitSepsAux : Bool → List Char → List (List Char)
  | _, [] => [[]]
  | false, c :: cs =>
      if isSepChar c then [] :: splitSepsAux true cs
      else consHead c (splitSepsAux false cs)
  | true, c :: cs =>
      if isSepChar c then splitSepsAux true cs
      else consHead c (splitSepsAux false cs)

/-- Model of `re.split(r'[-_]+', stem)`. -/
def splitSeps (st : List Char) : List (List Char) := splitSepsAux false st

/-- Lines 27-34 of `main.py`: scan the parts from the end for the last purely
numeric part; if none, fall back to the last part. -/
def findIdent (parts : List (List Char)) : Option (List Char) :=
  match parts.reverse.find? (fun p => pyIsdigit p) with
  | some p => some p
  | none => parts.getLast?

/-- Lines 36-39 of `main.py`: the parts making up the collection name.
`(ident.getD []).isEmpty = false` models Python truthiness of `ident` (a
non-None nonempty string). -/
def collPartsOf (parts : List (List Char)) (ident : Option (List Char)) :
    List (List Char) :=
  if !(ident.getD []).isEmpty && !parts.isEmpty
      && (parts.getLast? == some (ident.getD [])) then
    parts.dropLast
  else if !(ident.getD []).isEmpty then
    parts.filter (fun p => !(p == ident.getD []))
  else parts

/-- Python `' '.join(parts)`. -/
def joinWithSpace : List (List Char) → List Char
  | [] => []
  | [p] => p
  | p :: q :: rest => p ++ ' ' :: joinWithSpace (q :: rest)

/-- Lines 41-44 of `main.py`: `caption = ident.lstrip('0') or ident` for a
numeric identifier, else `ident or stem`. -/
def captionOf (stem : List Char) (ident : Option (List Char)) : List Char :=
  match ident with
  | some v =>
      if !v.isEmpty && pyIsdigit v then
        if (v.dropWhile (fun c => c == '0')).isEmpty then v
        else v.dropWhile (fun c => c == '0')
      else if !v.isEmpty then v else stem
  | none => stem

/-- The record `parse_file_info` builds. -/
structure FileInfo where
  collection : List Char
  number : Option (List Char)
  caption : List Char
  group_key : List Char × List Char
deriving Repr, DecidableEq

/-- Lines 26-51 of `main.py`, operating on the already `-2`-stripped stem. -/
def parseCore (stem : List Char) : FileInfo :=
  let parts := splitSeps stem
  let ident := findIdent parts
  let joined := pyStrip (joinWithSpace (collPartsOf parts ident))
  let collection := if joined.isEmpty then stem else joined
  let caption := captionOf stem ident
  { collection := if collection.isEmpty then stem else collection
    number := ident
    caption := caption
    group_key := (lowerStr collection, lowerStr caption) }

/-- Core of `parse_file_info` on the extension-free stem: strip a trailing `-2`,
then run the core parser. -/
def parseStem (stem : List Char) : FileInfo := parseCore (stripDup2 stem)

/-- Model of `parse_file_info` (lines 18-51 of `main.py`). -/
def parse_file_info (path : List Char) : FileInfo := parseStem (stemOfPath path)

/-- Model of `str.split('-')` (split at every dash, no collapsing). -/
def pySplitOn (sep : Char) : List Char → List (List Char)
  | [] => [[]]
  | c :: cs => if c == sep then [] :: pySplitOn sep cs else consHead c (pySplitOn sep cs)

/-- Model of `has_b_suffix` (lines 77-84 of `main.py`): take everything before the first
dash of the stem (if the stem has a dash) and test whether it ends,
case-insensitively, in the letter b. -/
def has_b_suffix (path : List Char) : Bool :=
  let name := stemOfPath path
  let name2 := if name.contains '-' then (pySplitOn '-' name).headD [] else name
  (lowerStr name2).getLast? == some 'b'

/-- One raw run of a filename: either a run of non-digits or a run of digits. -/
inductive RawTok where
  | txt : List Char → RawTok
  | digits : List Char → RawTok
deriving Repr, DecidableEq

/-- Split a name into maximal digit runs and non-digit runs (the grouping done
by `re.split(r'(\\d+)', name)`), building the current run at the head. -/
def rawRuns : List Char → List RawTok
  | [] => [RawTok.txt []]
  | c :: cs =>
      let r := rawRuns cs
      if pyIsDigitChar c then
        match r with
        | RawTok.digits d :: rest => RawTok.digits (c :: d) :: rest
        | other => RawTok.digits [c] :: other
      else
        match r with
        | RawTok.txt t :: rest => RawTok.txt (c :: t) :: rest
        | other => RawTok.txt [c] :: other

/-- Numeric value of a digit run (Python `int`). -/
def digitsToNat (ds : List Char) : Nat :=
  ds.foldl (fun a c => 10 * a + (c.toNat - '0'.toNat)) 0

/-- One element of a natural-sort key: lowered text, or the value of a digit
run. -/
inductive NatTok where
  | str : List Char → NatTok
  | num : Nat → NatTok
deriving Repr, DecidableEq

/-- Model of `natural_sort_key` (lines 62-65 of `main.py`): split the basename on digit
runs; digit runs become integers, the other pieces are lowered.  `re.split`
with a capturing group always yields a (possibly empty) text piece first, so a
leading digit run is preceded by an empty text piece. -/
def natural_sort_key (path : List Char) : List NatTok :=
  let raw := rawRuns (pyBasename path)
  let raw2 := match raw with
    | RawTok.digits _ :: _ => RawTok.txt [] :: raw
    | _ => raw
  raw2.map (fun t => match t with
    | RawTok.txt s => NatTok.str (lowerStr s)
    | RawTok.digits d => NatTok.num (digitsToNat d))

/-- Code-point comparison of strings (Python string `<`). -/
def strCmp : List Char → List Char → Ordering
  | [], [] => Ordering.eq
  | [], _ :: _ => Ordering.lt
  | _ :: _, [] => Ordering.gt
  | a :: as_, b :: bs =>
      if a < b then Ordering.lt
      else if b < a then Ordering.gt
      else strCmp as_ bs

/-- Comparison of key elements.  In Python a list key always alternates
strings (even positions) and integers (odd positions), so two compared
elements always have the same type; the mixed cases below are unreachable for
real keys and ordered arbitrarily. -/
def tokCmp : NatTok → NatTok → Ordering
  | NatTok.str a, NatTok.str b => strCmp a b
  | NatTok.num a, NatTok.num b => compare a b
  | NatTok.str _, NatTok.num _ => Ordering.lt
  | NatTok.num _, NatTok.str _ => Ordering.gt

/-- Lexicographic comparison of two key lists (Python list comparison). -/
def keyCmp : List NatTok → List NatTok → Ordering
  | [], [] => Ordering.eq
  | [], _ :: _ => Ordering.lt
  | _ :: _, [] => Ordering.gt
  | a :: as_, b :: bs =>
      match tokCmp a b with
      | Ordering.eq => keyCmp as_ bs
      | o => o

/-- Key order used by `sorted(..., key=natural_sort_key)`. -/
def natLe (a b : List Char) : Bool :=
  !(keyCmp (natural_sort_key a) (natural_sort_key b) == Ordering.gt)

/-- Stable insertion of an element into a sorted list: the new element goes
before the first element it is `le`-below-or-tied-with. -/
def ordInsert (le : α → α → Bool) (x : α) : List α → List α
  | [] => [x]
  | y :: ys => if le x y then x :: y :: ys else y :: ordInsert le x ys

/-- Stable sort by `le`; agrees with Python `sorted` for a total preorder,
since both are stable. -/
def insSort (le : α → α → Bool) : List α → List α
  | [] => []
  | x :: xs => ordInsert le x (insSort le xs)

/-- An input image: its path plus the byte size `os.path.getsize` reports. -/
structure ImageFile where
  path : List Char
  size : Nat
deriving Repr, DecidableEq

/-- The dedup partition key of a file (line 90 of `main.py`). -/
def fileKey (f : ImageFile) : List Char × List Char :=
  (parse_file_info f.path).group_key

/-- Group keys in first-insertion order, as a Python dict built by
`setdefault` holds them (lines 88-91 of `main.py`). -/
def groupKeysIn (files : List ImageFile) : List (List Char × List Char) :=
  files.foldl (fun ks f => if fileKey f ∈ ks then ks else ks ++ [fileKey f]) []

/-- Python `max(files, key=os.path.getsize)`: first file of maximal size. -/
def pymaxBySize (a : ImageFile) : List ImageFile → ImageFile
  | [] => a
  | b :: l => pymaxBySize (if a.size < b.size then b else a) l

/-- The non-variant files of a group (line 100 of `main.py`). -/
def primariesOf (g : List ImageFile) : List ImageFile :=
  g.filter (fun f => !has_b_suffix f.path)

/-- Lines 98-136 of `main.py`, one group: drop the group if every file has the
b marker; otherwise keep the largest primary (the unique one when there is no
duplicate). -/
def processGroup (g : List ImageFile) : List ImageFile :=
  match primariesOf g with
  | [] => []
  | x :: xs => if 0 < xs.length then [pymaxBySize x xs] else [x]

def fileNatLe (a b : ImageFile) : Bool := natLe a.path b.path

/-- Model of `remove_duplicates` (lines 86-153 of `main.py`): group by key, resolve
each group, and re-sort the survivors in natural order. -/
def remove_duplicates (files : List ImageFile) : List ImageFile :=
  let gs := (groupKeysIn files).map (fun k => files.filter (fun f => fileKey f == k))
  insSort fileNatLe ((gs.map processGroup).flatten)


/-- Model of `math.ceil(n / cols)` for positive `cols`, with exact rational division. -/
def mathCeilDiv (n m : Nat) : Nat := (n + m - 1) / m

/-- Lines 310-319 of `main.py`: the column count chosen for a batch of `n`
files at grid side `g`. -/
def planCols (g n : Nat) : Nat :=
  if n = g * g then g
  else if n ≤ 4 then min n 2
  else g

/-- The consecutive batches `files[start:end]` of capacity `cap` taken by the
loop in `main` (lines 305-308), written as list slicing. -/
def sliceChunks (cap : Nat) : List α → List (List α)
  | [] => []
  | x :: xs => (x :: xs.take (cap - 1)) :: sliceChunks cap (xs.drop (cap - 1))
termination_by l => l.length
decreasing_by
  simp only [List.length_drop, List.length_cons]
  omega

/-- Prepend an element onto the first chunk of a chunk list. -/
def consChunk (x : α) : List (List α) → List (List α)
  | [] => [[x]]
  | c :: cs => (x :: c) :: cs

/-- Structural (kernel-reducible) version of `sliceChunks`; the counter is the
room left in the chunk under construction. -/
def chunksAux (cap : Nat) : Nat → List α → List (List α)
  | _, [] => []
  | 0, x :: xs => [] :: consChunk x (chunksAux cap (cap - 1) xs)
  | Nat.succ k, x :: xs => consChunk x (chunksAux cap k xs)

/-- A page plan: the batch of a page together with its grid shape. -/
structure PagePlan (α : Type) where
  items : List α
  cols : Nat
  rows : Nat
deriving Repr, DecidableEq

/-- The pagination of `main` (lines 299-321): batches of `g * g` files, each
with its chosen column count and `math.ceil(n/cols)` rows. -/
def paginate (g : Nat) (files : List α) : List (PagePlan α) :=
  (sliceChunks (g * g) files).map
    (fun b => { items := b, cols := planCols g b.length,
                rows := mathCeilDiv b.length (planCols g b.length) })

/-- Header band height of `create_collage` (lines 217-219 of `main.py`):
`max(40, int(tile * 0.15))` when a yarn name is set, else 0.  The float
product `tile * 0.15` is modelled exactly as `tile * 15 / 100` (floor). -/
def headerHeight (tile : Nat) (yarnName : List Char) : Nat :=
  if yarnName.isEmpty then 0 else max 40 (tile * 15 / 100)

/-- Canvas dimensions computed by `create_collage` (lines 213-223 of
`main.py`). -/
def create_collage_size (n cols tile gap : Nat) (yarnName : List Char) :
    Nat × Nat :=
  let rows := mathCeilDiv n cols
  let header_h := headerHeight tile yarnName
  (cols * tile + (cols - 1) * gap, header_h + rows * tile + (rows - 1) * gap)

/-- The ellipsis character used by `draw_label`. -/
def ellipsisStr : List Char := ['…']

/-- The size-shrinking loop of `draw_label` (lines 184-187 of `main.py`):
while the text is wider than `maxw` and the size is above the floor 12,
decrement the size.  `mw s t` models the measured pixel width of `t` at font
size `s`. -/
def shrinkLoop (mw : Nat → List Char → Nat) (maxw : Nat) (text : List Char) :
    Nat → Nat
  | 0 => 0
  | Nat.succ s =>
      if maxw < mw (Nat.succ s) text && 12 < Nat.succ s then
        shrinkLoop mw maxw text s
      else Nat.succ s

/-- The prefix search of `draw_label` (lines 190-194 of `main.py`): try
`text[:i]` plus the ellipsis for `i` from the full length down to 1, returning
the first candidate that fits. -/
def scanTrunc (mw : List Char → Nat) (maxw : Nat) (text : List Char) :
    Nat → Option (List Char)
  | 0 => none
  | Nat.succ i =>
      if mw (text.take (Nat.succ i) ++ ellipsisStr) ≤ maxw then
        some (text.take (Nat.succ i) ++ ellipsisStr)
      else scanTrunc mw maxw text i

/-- Lines 188-196 of `main.py`: truncate with an ellipsis, falling back to the
ellipsis alone when no nonempty prefix fits. -/
def truncateLabel (mw : List Char → Nat) (maxw : Nat) (text : List Char) :
    List Char :=
  match scanTrunc mw maxw text text.length with
  | some t => t
  | none => ellipsisStr

/-- The display text `draw_label` (lines 172-196 of `main.py`) ends up
drawing.  `mw` abstracts the font measurement collaborator; `pad0` and `size0`
stand for the float-derived quantities `round(min(w,h)*0.025)` and
`round(min(w,h)*0.16)` before their floors are applied. -/
def draw_label_text (mw : Nat → List Char → Nat) (w : Nat) (pad0 size0 : Nat)
    (text : List Char) : List Char :=
  let pad := max 3 pad0
  let size := max 18 size0
  let maxw := w - 2 * pad
  let s := shrinkLoop mw maxw text size
  if maxw < mw s text then truncateLabel (mw s) maxw text else text


/-- The variant-marker test as the specification words it: on the stem with
the trailing `-suffix` portion (everything from the last dash on) removed,
test for a final letter b, case-insensitively. -/
def hasVariantMarkerSpec (path : List Char) : Bool :=
  let stem := stemOfPath path
  let base := if stem.contains '-' then
      ((stem.reverse.dropWhile (fun c => !(c == '-'))).drop 1).reverse
    else stem
  (lowerStr base).getLast? == some 'b'

/-- The concrete width measure used in the C8 witness: the character count
of the string, at every font size. -/
def lenMeasure : Nat → List Char → Nat := fun _ t => t.length

/-! ### Helper lemmas about the ceiling division of `main` -/

theorem mathCeilDiv_spec {n m : Nat} (h : 0 < m) :
    n ≤ m * mathCeilDiv n m ∧ (0 < n → m * (mathCeilDiv n m - 1) < n) := by
  unfold mathCeilDiv
  have h1 := Nat.div_add_mod (n + m - 1) m
  have h2 : (n + m - 1) % m < m := Nat.mod_lt _ h
  rcases hq : (n + m - 1) / m with _ | q
  · rw [hq] at h1
    simp only [Nat.mul_zero, Nat.zero_add] at h1 ⊢
    omega
  · rw [hq] at h1
    simp only [Nat.mul_succ, Nat.succ_sub_one] at h1 ⊢
    generalize m * q = M at h1 ⊢
    omega

/-! ### Chunking lemmas -/

theorem sliceChunks_flatten_aux (cap n : Nat) :
    ∀ l : List α, l.length ≤ n → (sliceChunks cap l).flatten = l := by
  induction n with
  | zero =>
      intro l hl
      have hnil : l = [] := List.eq_nil_of_length_eq_zero (Nat.le_zero.mp hl)
      subst hnil
      simp [sliceChunks]
  | succ n ih =>
      intro l hl
      cases l with
      | nil => simp [sliceChunks]
      | cons x xs =>
          rw [sliceChunks]
          have hlen : (xs.drop (cap - 1)).length ≤ n := by
            simp only [List.length_drop]
            simp only [List.length_cons] at hl
            omega
          simp only [List.flatten_cons, ih _ hlen, List.cons_append,
            List.take_append_drop]

theorem sliceChunks_flatten (cap : Nat) (l : List α) :
    (sliceChunks cap l).flatten = l :=
  sliceChunks_flatten_aux cap l.length l (Nat.le_refl _)

theorem sliceChunks_mem_aux (cap n : Nat) (hcap : 0 < cap) :
    ∀ l : List α, l.length ≤ n → ∀ c ∈ sliceChunks cap l,
      c ≠ [] ∧ c.length ≤ cap := by
  induction n with
  | zero =>
      intro l hl
      have hnil : l = [] := List.eq_nil_of_length_eq_zero (Nat.le_zero.mp hl)
      subst hnil
      simp [sliceChunks]
  | succ n ih =>
      intro l hl c hc
      cases l with
      | nil => simp [sliceChunks] at hc
      | cons x xs =>
          rw [sliceChunks] at hc
          rcases List.mem_cons.mp hc with hhd | htl
          · subst hhd
            refine ⟨by simp, ?_⟩
            simp only [List.length_cons, List.length_take]
            omega
          · have hlen : (xs.drop (cap - 1)).length ≤ n := by
              simp only [List.length_drop]
              simp only [List.length_cons] at hl
              omega
            exact ih _ hlen c htl

theorem sliceChunks_eq_nil_iff (cap : Nat) (l : List α) :
    sliceChunks cap l = [] ↔ l = [] := by
  cases l <;> simp [sliceChunks]

theorem sliceChunks_full_aux (cap n : Nat) (hcap : 0 < cap) :
    ∀ l : List α, l.length ≤ n → ∀ i c, (sliceChunks cap l)[i]? = some c →
      i + 1 < (sliceChunks cap l).length → c.length = cap := by
  induction n with
  | zero =>
      intro l hl
      have hnil : l = [] := List.eq_nil_of_length_eq_zero (Nat.le_zero.mp hl)
      subst hnil
      simp [sliceChunks]
  | succ n ih =>
      intro l hl i c hget hlt
      cases l with
      | nil => simp [sliceChunks] at hget
      | cons x xs =>
          rw [sliceChunks] at hget hlt
          have hlen : (xs.drop (cap - 1)).length ≤ n := by
            simp only [List.length_drop]
            simp only [List.length_cons] at hl
            omega
          cases i with
          | zero =>
              simp only [List.getElem?_cons_zero, Option.some_inj] at hget
              simp only [List.length_cons] at hlt
              have hne : sliceChunks cap (xs.drop (cap - 1)) ≠ [] := by
                intro hnil
                rw [hnil] at hlt
                simp at hlt
              have hdropne : xs.drop (cap - 1) ≠ [] := by
                intro hnil
                exact hne ((sliceChunks_eq_nil_iff cap _).mpr hnil)
              have hxs : cap - 1 ≤ xs.length := by
                by_contra hgt
                exact hdropne (List.drop_eq_nil_of_le (by omega))
              subst hget
              simp only [List.length_cons, List.length_take]
              omega
          | succ j =>
              simp only [List.getElem?_cons_succ] at hget
              simp only [List.length_cons] at hlt
              exact ih _ hlen j c hget (by omega)

theorem chunksAux_eq_aux (cap n : Nat) :
    ∀ l : List α, l.length ≤ n → ∀ c, chunksAux cap c l =
      if l.isEmpty then []
      else if c = 0 then [] :: sliceChunks cap l
      else l.take c :: sliceChunks cap (l.drop c) := by
  induction n with
  | zero =>
      intro l hl c
      have hnil : l = [] := List.eq_nil_of_length_eq_zero (Nat.le_zero.mp hl)
      subst hnil
      simp [chunksAux]
  | succ n ih =>
      intro l hl c
      cases l with
      | nil => simp [chunksAux]
      | cons x xs =>
          have hlen : xs.length ≤ n := by
            simp only [List.length_cons] at hl
            omega
          have key : consChunk x (chunksAux cap (cap - 1) xs) =
              (x :: xs.take (cap - 1)) :: sliceChunks cap (xs.drop (cap - 1)) := by
            rw [ih xs hlen (cap - 1)]
            cases xs with
            | nil => simp [consChunk, sliceChunks]
            | cons y ys =>
                rcases hc1 : cap - 1 with _ | k
                · simp [consChunk, hc1, sliceChunks]
                · simp [consChunk, hc1]
          cases c with
          | zero =>
              rw [chunksAux, key]
              simp [sliceChunks]
          | succ c' =>
              rw [chunksAux]
              rw [ih xs hlen c']
              cases xs with
              | nil => simp [consChunk, sliceChunks]
              | cons y ys =>
                  rcases hc1 : c' with _ | k
                  · simp [consChunk, sliceChunks]
                  · simp [consChunk]

theorem sliceChunks_eq_chunksAux {cap : Nat} (hcap : 0 < cap) (l : List α) :
    sliceChunks cap l = chunksAux cap cap l := by
  rw [chunksAux_eq_aux cap l.length l (Nat.le_refl _) cap]
  cases l with
  | nil => simp [sliceChunks]
  | cons x xs =>
      rcases hc : cap with _ | k
      · omega
      · rw [sliceChunks]
        simp [List.take_succ_cons, List.drop_succ_cons]

theorem paginate_eq_aux {g : Nat} (hg : 0 < g) (l : List α) :
    paginate g l = (chunksAux (g * g) (g * g) l).map
      (fun b => { items := b, cols := planCols g b.length,
                  rows := mathCeilDiv b.length (planCols g b.length) }) := by
  rw [paginate, sliceChunks_eq_chunksAux (Nat.mul_pos hg hg)]

theorem planCols_pos {g n : Nat} (hg : 0 < g) (hn : 0 < n) : 0 < planCols g n := by
  unfold planCols
  split
  · exact hg
  · split
    · exact Nat.lt_min.mpr ⟨hn, by decide⟩
    · exact hg

/-- C10: for a page of `n` items at `cols` columns, tile size `tile` and gap
`gap`, the canvas is `cols*tile + (cols-1)*gap` wide and
`header_h + rows*tile + (rows-1)*gap` tall, where `rows = ceil(n/cols)` and
`header_h` is `max(40, floor(tile*0.15))` for a nonempty header name and `0`
otherwise. -/
theorem claim10_collage_canvas_size :
    ∀ (n cols tile gap : Nat) (name : List Char), 0 < cols →
      create_collage_size n cols tile gap name =
        (cols * tile + (cols - 1) * gap,
          (if name.isEmpty then 0 else max 40 (tile * 15 / 100)) +
            mathCeilDiv n cols * tile + (mathCeilDiv n cols - 1) * gap)
      ∧ n ≤ cols * mathCeilDiv n cols
      ∧ (0 < n → cols * (mathCeilDiv n cols - 1) < n) := by
  intro n cols tile gap name h
  exact ⟨rfl, mathCeilDiv_spec h⟩

theorem claim10_collage_canvas_size_witness :
    0 < 5 ∧ 27 ≤ 5 * mathCeilDiv 27 5 :=
  ⟨by decide,
   (claim10_collage_canvas_size 27 5 600 10 "DROPS Nepal".data (by decide)).2.1⟩

/-- C6: pagination splits the input into consecutive chunks of at most
`g*g` items preserving order, only the last chunk may be short, the column
count follows the `n = g*g` / `n ≤ 4` / otherwise rule, rows are
`ceil(n/cols)`, and 27 items at grid size 5 give pages (25 items, 5 cols,
5 rows) and (2 items, 2 cols, 1 row). -/
theorem claim6_paginate :
    (∀ (α : Type) (l : List α) (g : Nat), 0 < g →
      ((paginate g l).map PagePlan.items).flatten = l
      ∧ (∀ p ∈ paginate g l, p.items ≠ [] ∧ p.items.length ≤ g * g
          ∧ p.cols = (if p.items.length = g * g then g
                      else if p.items.length ≤ 4 then min p.items.length 2 else g)
          ∧ p.rows = mathCeilDiv p.items.length p.cols
          ∧ p.items.length ≤ p.cols * p.rows)
      ∧ (∀ i c, (paginate g l)[i]? = some c → i + 1 < (paginate g l).length →
          c.items.length = g * g))
    ∧ (paginate 5 (List.range 27)).map (fun p => (p.items.length, p.cols, p.rows))
        = [(25, 5, 5), (2, 2, 1)] := by
  constructor
  · intro α l g hg
    have hcap : 0 < g * g := Nat.mul_pos hg hg
    refine ⟨?_, ?_, ?_⟩
    · rw [paginate, List.map_map]
      have hid : (PagePlan.items ∘ fun b : List α =>
          (⟨b, planCols g b.length, mathCeilDiv b.length (planCols g b.length)⟩ :
            PagePlan α)) = id := rfl
      rw [hid, List.map_id, sliceChunks_flatten]
    · intro p hp
      rw [paginate] at hp
      obtain ⟨b, hb, rfl⟩ := List.mem_map.mp hp
      obtain ⟨hne, hle⟩ := sliceChunks_mem_aux (g * g) l.length hcap l
        (Nat.le_refl _) b hb
      have hn : 0 < b.length := List.length_pos.mpr hne
      refine ⟨hne, hle, rfl, rfl, ?_⟩
      exact (mathCeilDiv_spec (planCols_pos hg hn)).1
    · intro i c hget hlt
      rw [paginate] at hget hlt
      rw [List.getElem?_map] at hget
      rcases hb : (sliceChunks (g * g) l)[i]? with _ | b
      · rw [hb] at hget
        exact absurd hget (by simp)
      · rw [hb] at hget
        have hfb := Option.some.inj hget
        rw [List.length_map] at hlt
        have := sliceChunks_full_aux (g * g) l.length hcap l (Nat.le_refl _) i b hb hlt
        rw [← hfb]
        exact this
  · rw [paginate_eq_aux (by decide : 0 < 5)]
    decide

theorem claim6_paginate_witness :
    0 < 1 ∧ ((paginate 1 ([true] : List Bool)).map PagePlan.items).flatten = [true] :=
  ⟨by decide, (claim6_paginate.1 Bool [true] 1 (by decide)).1⟩

/-! ### Lemmas about the identity parser -/

theorem consHead_headD (c : Char) (l : List (List Char)) :
    (consHead c l).headD [] = c :: l.headD [] := by
  cases l <;> rfl

theorem pySplitOn_head (sep : Char) :
    ∀ cs : List Char, (pySplitOn sep cs).headD [] =
      cs.takeWhile (fun c => !(c == sep)) := by
  intro cs
  induction cs with
  | nil => rfl
  | cons c cs ih =>
      rw [pySplitOn]
      cases hc : (c == sep) with
      | true => simp [hc, List.takeWhile_cons]
      | false =>
          rw [if_neg (by simp [hc]), consHead_headD, ih]
          simp [List.takeWhile_cons, hc]

theorem takeWhile_all (p : Char → Bool) :
    ∀ cs : List Char, cs.all p = true → cs.takeWhile p = cs := by
  intro cs
  induction cs with
  | nil => intro _; rfl
  | cons c cs ih =>
      intro h
      rw [List.all_cons, Bool.and_eq_true] at h
      simp only [List.takeWhile_cons, h.1, if_true, ih h.2]

theorem takeWhile_of_not_contains (sep : Char) :
    ∀ cs : List Char, cs.contains sep = false →
      cs.takeWhile (fun c => !(c == sep)) = cs := by
  intro cs
  induction cs with
  | nil => intro _; rfl
  | cons c cs ih =>
      intro h
      simp only [List.contains_cons, Bool.or_eq_false_iff] at h
      have hc : (c == sep) = false := by
        cases hcc : (c == sep) with
        | true =>
            have : c = sep := eq_of_beq hcc
            subst this
            simp at h
        | false => rfl
      simp only [List.takeWhile_cons, hc, Bool.not_false, if_true, ih h.2]


/-- C1 counterexample: on the stem `Alpaca-01b-2` the code cuts at the first
dash (keeping `Alpaca`, no marker), while the claim's reading — remove the
trailing `-suffix` and look at `Alpaca-01b` — yields a marker. -/
theorem claim1_counterexample :
    has_b_suffix "Alpaca-01b-2.jpg".data = false
    ∧ hasVariantMarkerSpec "Alpaca-01b-2.jpg".data = true := by
  decide

/-- C1 amended: `hasVariantMarker` is true iff the stem truncated at its
first dash (everything from the first `-` on removed) ends case-insensitively
with the letter b; in particular `07b` and `07b-2` have the marker while `07`
and `b7` do not. -/
theorem claim1_hasVariantMarker_amended :
    (∀ path : List Char, has_b_suffix path =
      ((lowerStr ((stemOfPath path).takeWhile (fun c => !(c == '-')))).getLast?
        == some 'b'))
    ∧ has_b_suffix "07b.jpg".data = true
    ∧ has_b_suffix "07b-2.jpg".data = true
    ∧ has_b_suffix "07.jpg".data = false
    ∧ has_b_suffix "b7.jpg".data = false := by
  refine ⟨?_, by decide, by decide, by decide, by decide⟩
  intro path
  rw [has_b_suffix]
  cases hc : (stemOfPath path).contains '-' with
  | true =>
      rw [if_pos (by rfl : (true : Bool) = true), pySplitOn_head]
  | false =>
      rw [if_neg (by simp), takeWhile_of_not_contains _ _ hc]

theorem noSep_stripDup2 {st : List Char}
    (h : st.all (fun c => !isSepChar c) = true) : stripDup2 st = st := by
  have hend : endsWithDash2 st = false := by
    unfold endsWithDash2
    cases hr : st.reverse with
    | nil => rfl
    | cons c tl =>
        cases tl with
        | nil => rfl
        | cons d tl2 =>
            have hd : d ∈ st := by
              rw [← List.mem_reverse, hr]
              exact List.mem_cons_of_mem _ (List.mem_cons_self _ _)
            have hsep := List.all_eq_true.mp h _ hd
            have hdd : (d == '-') = false := by
              cases hdc : (d == '-') with
              | true =>
                  have : d = '-' := eq_of_beq hdc
                  subst this
                  simp [isSepChar] at hsep
              | false => rfl
            simp [hdd]
  rw [stripDup2, hend]
  simp

theorem noSep_splitSeps {st : List Char}
    (h : st.all (fun c => !isSepChar c) = true) : splitSeps st = [st] := by
  rw [splitSeps]
  induction st with
  | nil => rfl
  | cons c cs ih =>
      rw [List.all_cons, Bool.and_eq_true] at h
      have hc : isSepChar c = false := by
        cases hcc : isSepChar c with
        | true => rw [hcc] at h; simp at h
        | false => rfl
      rw [splitSepsAux, if_neg (by simp [hc]), ih h.2]
      rfl

/-- C9: the identity parser is total (it is a Lean function on all stems),
and on a stem with no separators that is not purely numeric it falls back to
the whole stem as collection and caption, with the group key built from the
lowered stem twice. -/
theorem claim9_parser_total_fallback :
    ∀ st : List Char, st.all (fun c => !isSepChar c) = true →
      pyIsdigit st = false →
      (parseStem st).collection = st ∧ (parseStem st).caption = st
      ∧ (parseStem st).group_key = (lowerStr st, lowerStr st) := by
  intro st hsep hdig
  have hstrip : stripDup2 st = st := noSep_stripDup2 hsep
  have hsplit : splitSeps st = [st] := noSep_splitSeps hsep
  have hident : findIdent [st] = some st := by
    rw [findIdent]
    simp [List.find?, hdig]
  cases st with
  | nil => decide
  | cons c cs =>
      rw [parseStem, hstrip, parseCore, hsplit, hident]
      have hcoll : collPartsOf [c :: cs] (some (c :: cs)) = [] := by
        rw [collPartsOf]
        simp
      rw [hcoll]
      have hcapt : captionOf (c :: cs) (some (c :: cs)) = c :: cs := by
        rw [captionOf]
        simp [hdig]
      rw [hcapt]
      simp [joinWithSpace, pyStrip]

theorem claim9_parser_total_fallback_witness :
    "abc".data.all (fun c => !isSepChar c) = true
    ∧ pyIsdigit "abc".data = false
    ∧ (parseStem "abc".data).caption = "abc".data :=
  ⟨by decide, by decide,
   (claim9_parser_total_fallback "abc".data (by decide) (by decide)).2.1⟩

/-- C4 counterexample: for the stem `000` the extracted identifier is `000`
(all digits), but the caption the code produces is `000`, not the `0` the
claim requires. -/
theorem claim4_counterexample :
    (parse_file_info "000.jpg".data).number = some "000".data
    ∧ (parse_file_info "000.jpg".data).caption = "000".data
    ∧ "000".data ≠ "0".data := by
  decide

/-- C4 amended: for a stem whose identifier is all digits the caption is the
identifier with leading zeros stripped when some nonzero digit remains, and
the identifier unchanged when it is all zeros (so `000` gives `000`); the
caption is never empty. -/
theorem claim4_caption_amended :
    ∀ (path d : List Char), (parse_file_info path).number = some d →
      pyIsdigit d = true →
      (parse_file_info path).caption =
        (if (d.dropWhile (fun c => c == '0')).isEmpty then d
         else d.dropWhile (fun c => c == '0'))
      ∧ (parse_file_info path).caption ≠ [] := by
  intro path d hnum hd
  have hcap : (parse_file_info path).caption =
      captionOf (stripDup2 (stemOfPath path))
        (findIdent (splitSeps (stripDup2 (stemOfPath path)))) := rfl
  have hnum' : findIdent (splitSeps (stripDup2 (stemOfPath path))) = some d := hnum
  rw [hcap, hnum']
  have hne : d.isEmpty = false := by
    rw [pyIsdigit, Bool.and_eq_true] at hd
    cases hie : d.isEmpty with
    | true => rw [hie] at hd; simp at hd
    | false => rfl
  have hdne : d ≠ [] := by
    intro hcontra
    subst hcontra
    simp at hne
  rw [captionOf]
  simp only [hne, Bool.not_false, hd, Bool.and_self, if_true]
  constructor
  · trivial
  · cases hz : (d.dropWhile (fun c => c == '0')).isEmpty with
    | true => simpa using hdne
    | false =>
        intro hcontra
        rw [if_neg (by simp)] at hcontra
        rw [hcontra] at hz
        simp at hz

theorem claim4_caption_amended_witness :
    (parse_file_info "00123.jpg".data).number = some "00123".data
    ∧ pyIsdigit "00123".data = true
    ∧ (parse_file_info "00123.jpg".data).caption ≠ [] :=
  ⟨by decide, by decide,
   (claim4_caption_amended "00123.jpg".data "00123".data (by decide) (by decide)).2⟩

/-! ### Label truncation lemmas -/

theorem scanTrunc_some (m : List Char → Nat) (maxw : Nat) (text : List Char) :
    ∀ n t, scanTrunc m maxw text n = some t →
      ∃ i, 0 < i ∧ i ≤ n ∧ t = text.take i ++ ellipsisStr ∧ m t ≤ maxw := by
  intro n
  induction n with
  | zero =>
      intro t h
      simp [scanTrunc] at h
  | succ i ih =>
      intro t h
      rw [scanTrunc] at h
      by_cases hfit : m (text.take (i + 1) ++ ellipsisStr) ≤ maxw
      · rw [if_pos hfit] at h
        have ht := Option.some.inj h
        refine ⟨i + 1, Nat.succ_pos i, Nat.le_refl _, ht.symm, ?_⟩
        rw [← ht]
        exact hfit
      · rw [if_neg hfit] at h
        obtain ⟨j, hj0, hji, ht, hm⟩ := ih t h
        exact ⟨j, hj0, Nat.le_succ_of_le hji, ht, hm⟩

theorem truncateLabel_spec (m : List Char → Nat) (maxw : Nat) (text : List Char)
    (hwide : maxw < m text) (hmono : ∀ t1 t2, m t1 ≤ m (t1 ++ t2)) :
    (∃ i, 0 < i ∧ i < text.length ∧
        truncateLabel m maxw text = text.take i ++ ellipsisStr ∧
        m (truncateLabel m maxw text) ≤ maxw)
    ∨ truncateLabel m maxw text = ellipsisStr := by
  rw [truncateLabel]
  cases hL : text.length with
  | zero =>
      right
      rfl
  | succ L =>
      have htake : text.take (L + 1) = text := by
        rw [← hL]
        exact List.take_length text
      have hnofit : ¬(m (text.take (L + 1) ++ ellipsisStr) ≤ maxw) := by
        rw [htake]
        intro hle
        have h1 : m text ≤ m (text ++ ellipsisStr) := hmono text ellipsisStr
        omega
      rw [scanTrunc, if_neg hnofit]
      cases hscan : scanTrunc m maxw text L with
      | none =>
          right
          rfl
      | some t =>
          left
          obtain ⟨i, hi0, hiL, ht, hm⟩ := scanTrunc_some m maxw text L t hscan
          refine ⟨i, hi0, by omega, ht, ?_⟩
          show m t ≤ maxw
          exact hm


/-- C8: when the caption is still too wide at the size the shrink loop
settles on, the drawn string is a strict nonempty prefix of the caption
followed by the ellipsis and measures within the available width
(`w - 2*pad`), or the ellipsis alone when no nonempty prefix fits. -/
theorem claim8_label_fits :
    ∀ (mw : Nat → List Char → Nat) (w pad0 size0 : Nat) (text : List Char),
      w - 2 * max 3 pad0 <
        mw (shrinkLoop mw (w - 2 * max 3 pad0) text (max 18 size0)) text →
      (∀ t1 t2 : List Char,
        mw (shrinkLoop mw (w - 2 * max 3 pad0) text (max 18 size0)) t1 ≤
          mw (shrinkLoop mw (w - 2 * max 3 pad0) text (max 18 size0)) (t1 ++ t2)) →
      ((∃ i, 0 < i ∧ i < text.length ∧
          draw_label_text mw w pad0 size0 text = text.take i ++ ellipsisStr ∧
          mw (shrinkLoop mw (w - 2 * max 3 pad0) text (max 18 size0))
              (draw_label_text mw w pad0 size0 text) ≤ w - 2 * max 3 pad0)
       ∨ draw_label_text mw w pad0 size0 text = ellipsisStr) := by
  intro mw w pad0 size0 text hwide hmono
  have hdl : draw_label_text mw w pad0 size0 text =
      truncateLabel (mw (shrinkLoop mw (w - 2 * max 3 pad0) text (max 18 size0)))
        (w - 2 * max 3 pad0) text := by
    rw [draw_label_text, if_pos hwide]
  rw [hdl]
  exact truncateLabel_spec _ _ _ hwide hmono

theorem claim8_label_fits_witness :
    8 - 2 * max 3 0 <
      lenMeasure (shrinkLoop lenMeasure (8 - 2 * max 3 0) "abcd".data (max 18 0))
        "abcd".data
    ∧ ((∃ i, 0 < i ∧ i < "abcd".data.length ∧
          draw_label_text lenMeasure 8 0 0 "abcd".data = "abcd".data.take i ++ ellipsisStr ∧
          lenMeasure (shrinkLoop lenMeasure (8 - 2 * max 3 0) "abcd".data (max 18 0))
              (draw_label_text lenMeasure 8 0 0 "abcd".data) ≤ 8 - 2 * max 3 0)
       ∨ draw_label_text lenMeasure 8 0 0 "abcd".data = ellipsisStr) :=
  ⟨by decide,
   claim8_label_fits lenMeasure 8 0 0 "abcd".data (by decide)
     (fun t1 t2 => by simp [lenMeasure])⟩

/-! ### Natural sorting -/

theorem insSort_sorted_id (le : α → α → Bool) :
    ∀ l : List α, List.Chain' (fun a b => le a b = true) l → insSort le l = l := by
  intro l
  induction l with
  | nil => intro _; rfl
  | cons x xs ih =>
      intro h
      cases xs with
      | nil => rfl
      | cons y ys =>
          rw [List.chain'_cons] at h
          rw [insSort, ih h.2, ordInsert, if_pos h.1]

/-- C7: natural sorting compares digit runs numerically and other runs
case-insensitively, reordering `1.jpg, 10.jpg, 2.jpg` to `1.jpg, 2.jpg,
10.jpg` and `img2, img10, img1` to `img1, img2, img10`; a list already in
natural order is left unchanged. -/
theorem claim7_natural_sort :
    insSort natLe ["1.jpg".data, "10.jpg".data, "2.jpg".data] =
      ["1.jpg".data, "2.jpg".data, "10.jpg".data]
    ∧ insSort natLe ["img2".data, "img10".data, "img1".data] =
      ["img1".data, "img2".data, "img10".data]
    ∧ (∀ l : List (List Char),
        List.Chain' (fun a b => natLe a b = true) l → insSort natLe l = l) := by
  refine ⟨by decide, by decide, ?_⟩
  exact insSort_sorted_id natLe

theorem claim7_natural_sort_witness :
    List.Chain' (fun a b => natLe a b = true) ["a.jpg".data, "b.jpg".data]
    ∧ insSort natLe ["a.jpg".data, "b.jpg".data] = ["a.jpg".data, "b.jpg".data] := by
  have hchain : List.Chain' (fun a b => natLe a b = true)
      ["a.jpg".data, "b.jpg".data] := by
    rw [List.chain'_cons]
    exact ⟨by decide, by simp⟩
  exact ⟨hchain, claim7_natural_sort.2.2 _ hchain⟩

/-! ### Deduplication lemmas -/

theorem pymaxBySize_mem : ∀ (l : List ImageFile) (a : ImageFile),
    pymaxBySize a l ∈ a :: l := by
  intro l
  induction l with
  | nil => intro a; exact List.mem_cons_self _ _
  | cons b l ih =>
      intro a
      rw [pymaxBySize]
      rcases List.mem_cons.mp (ih (if a.size < b.size then b else a)) with h1 | h2
      · rw [h1]
        split
        · exact List.mem_cons_of_mem _ (List.mem_cons_self _ _)
        · exact List.mem_cons_self _ _
      · exact List.mem_cons_of_mem _ (List.mem_cons_of_mem _ h2)

theorem pymaxBySize_le : ∀ (l : List ImageFile) (a x : ImageFile),
    x ∈ a :: l → x.size ≤ (pymaxBySize a l).size := by
  intro l
  induction l with
  | nil =>
      intro a x hx
      rw [List.mem_singleton] at hx
      subst hx
      exact Nat.le_refl _
  | cons b l ih =>
      intro a x hx
      rw [pymaxBySize]
      have hac : a.size ≤ (if a.size < b.size then b else a).size := by
        split
        · exact Nat.le_of_lt (by assumption)
        · exact Nat.le_refl _
      have hbc : b.size ≤ (if a.size < b.size then b else a).size := by
        split
        · exact Nat.le_refl _
        · omega
      have hmax := ih (if a.size < b.size then b else a)
        (if a.size < b.size then b else a) (List.mem_cons_self _ _)
      rcases List.mem_cons.mp hx with h1 | hx2
      · subst h1
        exact Nat.le_trans hac hmax
      · rcases List.mem_cons.mp hx2 with h2 | h3
        · subst h2
          exact Nat.le_trans hbc hmax
        · exact ih _ x (List.mem_cons_of_mem _ h3)

theorem pymaxBySize_first : ∀ (l : List ImageFile) (a : ImageFile),
    (a :: l).find? (fun x => x.size == (pymaxBySize a l).size) =
      some (pymaxBySize a l) := by
  intro l
  induction l with
  | nil => intro a; simp [pymaxBySize, List.find?]
  | cons b l ih =>
      intro a
      rw [pymaxBySize]
      by_cases hab : a.size < b.size
      · rw [if_pos hab]
        have hble : b.size ≤ (pymaxBySize b l).size :=
          pymaxBySize_le l b b (List.mem_cons_self _ _)
        have ha : ((fun x : ImageFile => x.size == (pymaxBySize b l).size) a) = false := by
          simp only [beq_eq_false_iff_ne, ne_eq]
          omega
        rw [List.find?_cons_of_neg _ (by simp [ha])]
        exact ih b
      · rw [if_neg hab]
        have hle : a.size ≤ (pymaxBySize a l).size :=
          pymaxBySize_le l a a (List.mem_cons_self _ _)
        by_cases hasz : (a.size == (pymaxBySize a l).size) = true
        · have hIH := ih a
          rw [List.find?_cons_of_pos _ (by simp [hasz])] at hIH
          have haeq : a = pymaxBySize a l := Option.some.inj hIH
          rw [List.find?_cons_of_pos _ (by simp [hasz])]
          rw [← haeq]
        · have halt : a.size < (pymaxBySize a l).size := by
            rcases Nat.lt_or_ge a.size (pymaxBySize a l).size with h | h
            · exact h
            · exfalso
              apply hasz
              simp only [beq_iff_eq]
              omega
          have hb : ((fun x : ImageFile => x.size == (pymaxBySize a l).size) b) = false := by
            simp only [beq_eq_false_iff_ne, ne_eq]
            omega
          have hIH := ih a
          rw [List.find?_cons_of_neg _ (by simp [hasz])] at hIH
          rw [List.find?_cons_of_neg _ (by simp [hasz]),
            List.find?_cons_of_neg _ (by simp [hb])]
          exact hIH

/-- C3: a dedup group with more than one primary keeps exactly one file: a
primary of maximal byte size, and among the maximal ones the first in the
group's input order (so the outcome is deterministic); all other files of the
group, primaries and variants alike, are dropped. -/
theorem claim3_dedup_keeps_largest_primary :
    ∀ g : List ImageFile, 1 < (primariesOf g).length →
      ∃ k, processGroup g = [k] ∧ k ∈ primariesOf g
        ∧ (∀ x ∈ primariesOf g, x.size ≤ k.size)
        ∧ (primariesOf g).find? (fun x => x.size == k.size) = some k := by
  intro g hlen
  rcases hp : primariesOf g with _ | ⟨x, xs⟩
  · rw [hp] at hlen
    simp at hlen
  · rw [hp] at hlen
    simp only [List.length_cons] at hlen
    have hxs : 0 < xs.length := by omega
    refine ⟨pymaxBySize x xs, ?_, ?_, ?_, ?_⟩
    · rw [processGroup, hp]
      show (if 0 < xs.length then [pymaxBySize x xs] else [x]) = [pymaxBySize x xs]
      rw [if_pos hxs]
    · exact pymaxBySize_mem xs x
    · intro y hy
      exact pymaxBySize_le xs x y hy
    · exact pymaxBySize_first xs x

theorem claim3_dedup_keeps_largest_primary_witness :
    1 < (primariesOf [⟨"01.jpg".data, 10⟩, ⟨"1.jpg".data, 50⟩,
          ⟨"001.jpg".data, 30⟩, ⟨"01b.jpg".data, 99⟩]).length
    ∧ ∃ k, processGroup [⟨"01.jpg".data, 10⟩, ⟨"1.jpg".data, 50⟩,
          ⟨"001.jpg".data, 30⟩, ⟨"01b.jpg".data, 99⟩] = [k]
        ∧ k ∈ primariesOf [⟨"01.jpg".data, 10⟩, ⟨"1.jpg".data, 50⟩,
            ⟨"001.jpg".data, 30⟩, ⟨"01b.jpg".data, 99⟩]
        ∧ (∀ x ∈ primariesOf [⟨"01.jpg".data, 10⟩, ⟨"1.jpg".data, 50⟩,
            ⟨"001.jpg".data, 30⟩, ⟨"01b.jpg".data, 99⟩], x.size ≤ k.size)
        ∧ (primariesOf [⟨"01.jpg".data, 10⟩, ⟨"1.jpg".data, 50⟩,
            ⟨"001.jpg".data, 30⟩, ⟨"01b.jpg".data, 99⟩]).find?
            (fun x => x.size == k.size) = some k :=
  ⟨by decide, claim3_dedup_keeps_largest_primary _ (by decide)⟩

theorem mem_ordInsert (le : α → α → Bool) (y : α) :
    ∀ (l : List α) (x : α), x ∈ ordInsert le y l ↔ x = y ∨ x ∈ l := by
  intro l
  induction l with
  | nil => intro x; simp [ordInsert]
  | cons z zs ih =>
      intro x
      rw [ordInsert]
      split
      · simp
      · rw [List.mem_cons, ih x, List.mem_cons]
        tauto

theorem mem_insSort (le : α → α → Bool) :
    ∀ (l : List α) (x : α), x ∈ insSort le l ↔ x ∈ l := by
  intro l
  induction l with
  | nil => intro x; rfl
  | cons y ys ih =>
      intro x
      rw [insSort, mem_ordInsert, ih x, List.mem_cons]

theorem processGroup_sub : ∀ (g : List ImageFile) (f : ImageFile),
    f ∈ processGroup g → f ∈ primariesOf g := by
  intro g f
  rw [processGroup]
  rcases hp : primariesOf g with _ | ⟨x, xs⟩
  · intro hf
    simp at hf
  · intro hf
    have hf2 : f ∈ (if 0 < xs.length then [pymaxBySize x xs] else [x]) := hf
    split at hf2
    · rw [List.mem_singleton] at hf2
      subst hf2
      exact pymaxBySize_mem xs x
    · rw [List.mem_singleton] at hf2
      subst hf2
      exact List.mem_cons_self _ _

theorem remove_duplicates_sub : ∀ (files : List ImageFile) (f : ImageFile),
    f ∈ remove_duplicates files → f ∈ files ∧ has_b_suffix f.path = false := by
  intro files f hf
  rw [remove_duplicates] at hf
  rw [mem_insSort, List.mem_flatten] at hf
  obtain ⟨l, hl, hfl⟩ := hf
  rw [List.mem_map] at hl
  obtain ⟨g, hg, rfl⟩ := hl
  have hprim := processGroup_sub g f hfl
  rw [primariesOf, List.mem_filter] at hprim
  obtain ⟨hing, hnb⟩ := hprim
  rw [List.mem_map] at hg
  obtain ⟨k, _, rfl⟩ := hg
  rw [List.mem_filter] at hing
  refine ⟨hing.1, ?_⟩
  cases hb : has_b_suffix f.path with
  | true => rw [hb] at hnb; simp at hnb
  | false => rfl

/-- C2: if every file of a dedup group carries the variant marker (no
primaries), `remove_duplicates` keeps no file of that group, however many
variant files there are. -/
theorem claim2_dedup_drops_all_variant_group :
    ∀ (files : List ImageFile) (k : List Char × List Char),
      (∀ f ∈ files, fileKey f = k → has_b_suffix f.path = true) →
      ∀ f ∈ remove_duplicates files, fileKey f ≠ k := by
  intro files k hall f hf hkey
  obtain ⟨hin, hnb⟩ := remove_duplicates_sub files f hf
  have hb := hall f hin hkey
  rw [hb] at hnb
  exact Bool.noConfusion hnb

theorem claim2_dedup_drops_all_variant_group_witness :
    (∀ f ∈ [(⟨"01b.jpg".data, 5⟩ : ImageFile), ⟨"01b-2.jpg".data, 7⟩],
      fileKey f = fileKey ⟨"01b.jpg".data, 5⟩ → has_b_suffix f.path = true)
    ∧ ∀ f ∈ remove_duplicates [(⟨"01b.jpg".data, 5⟩ : ImageFile), ⟨"01b-2.jpg".data, 7⟩],
        fileKey f ≠ fileKey ⟨"01b.jpg".data, 5⟩ :=
  ⟨by decide, claim2_dedup_drops_all_variant_group _ _ (by decide)⟩

/-! ### Character-level facts about ASCII lower-casing -/

theorem toNat_ofNat_valid {n : Nat} (h : n < 55296) : (Char.ofNat n).toNat = n := by
  have hv : n.isValidChar := Or.inl h
  rw [Char.ofNat, dif_pos hv]
  rfl

theorem char_eq_iff_toNat {c d : Char} : c = d ↔ c.toNat = d.toNat := by
  constructor
  · intro h
    rw [h]
  · intro h
    exact Char.eq_of_val_eq (UInt32.toNat.inj h)

theorem lowerCh_toNat_upper {c : Char} (h : 65 ≤ c.toNat ∧ c.toNat ≤ 90) :
    (lowerCh c).toNat = c.toNat + 32 := by
  rw [lowerCh, if_pos h, toNat_ofNat_valid (by omega)]

theorem lowerCh_eq_self {c : Char} (h : ¬(65 ≤ c.toNat ∧ c.toNat ≤ 90)) :
    lowerCh c = c := by
  rw [lowerCh, if_neg h]

theorem lowerCh_beq_fixed (c x : Char) (hx1 : ¬(97 ≤ x.toNat ∧ x.toNat ≤ 122))
    (hx2 : ¬(65 ≤ x.toNat ∧ x.toNat ≤ 90)) :
    ((lowerCh c) == x) = (c == x) := by
  by_cases h : 65 ≤ c.toNat ∧ c.toNat ≤ 90
  · have h1 : (lowerCh c).toNat = c.toNat + 32 := lowerCh_toNat_upper h
    have hl : ((lowerCh c) == x) = false := by
      rw [beq_eq_false_iff_ne]
      intro he
      rw [char_eq_iff_toNat, h1] at he
      omega
    have hr : (c == x) = false := by
      rw [beq_eq_false_iff_ne]
      intro he
      rw [char_eq_iff_toNat] at he
      omega
    rw [hl, hr]
  · rw [lowerCh_eq_self h]

theorem lowerCh_isDigit (c : Char) : pyIsDigitChar (lowerCh c) = pyIsDigitChar c := by
  by_cases h : 65 ≤ c.toNat ∧ c.toNat ≤ 90
  · have h1 : (lowerCh c).toNat = c.toNat + 32 := lowerCh_toNat_upper h
    rw [pyIsDigitChar, pyIsDigitChar, h1]
    rw [decide_eq_decide]
    omega
  · rw [lowerCh_eq_self h]

theorem lowerCh_beq_digit (c d : Char) (hd : pyIsDigitChar d = true) :
    ((lowerCh c) == d) = (c == d) := by
  rw [pyIsDigitChar, decide_eq_true_iff] at hd
  exact lowerCh_beq_fixed c d (by omega) (by omega)

theorem lowerCh_digit_fix {c : Char} (hc : pyIsDigitChar c = true) :
    lowerCh c = c := by
  rw [pyIsDigitChar, decide_eq_true_iff] at hc
  exact lowerCh_eq_self (by omega)

theorem lowerCh_idem (c : Char) : lowerCh (lowerCh c) = lowerCh c := by
  by_cases h : 65 ≤ c.toNat ∧ c.toNat ≤ 90
  · have h1 : (lowerCh c).toNat = c.toNat + 32 := lowerCh_toNat_upper h
    exact lowerCh_eq_self (by omega)
  · rw [lowerCh_eq_self h, lowerCh_eq_self h]

theorem lowerCh_sep (c : Char) : isSepChar (lowerCh c) = isSepChar c := by
  rw [isSepChar, isSepChar,
    lowerCh_beq_fixed c '-' (by decide) (by decide),
    lowerCh_beq_fixed c '_' (by decide) (by decide)]

theorem lowerCh_space (c : Char) : isSpaceChar (lowerCh c) = isSpaceChar c := by
  rw [isSpaceChar, isSpaceChar,
    lowerCh_beq_fixed c ' ' (by decide) (by decide),
    lowerCh_beq_fixed c '\t' (by decide) (by decide),
    lowerCh_beq_fixed c '\n' (by decide) (by decide),
    lowerCh_beq_fixed c '\x0d' (by decide) (by decide),
    lowerCh_beq_fixed c '\x0b' (by decide) (by decide),
    lowerCh_beq_fixed c '\x0c' (by decide) (by decide)]

/-! ### Commutation of the string operations with lower-casing -/

theorem isEmpty_map (f : α → β) (l : List α) : (l.map f).isEmpty = l.isEmpty := by
  cases l <;> rfl

theorem dropLast_map_comm (f : α → β) :
    ∀ l : List α, (l.map f).dropLast = l.dropLast.map f := by
  intro l
  induction l with
  | nil => rfl
  | cons a l ih =>
      cases l with
      | nil => rfl
      | cons b t =>
          simp only [List.map_cons, List.dropLast_cons₂]
          simp only [List.map_cons] at ih
          rw [ih]

theorem lowerStr_idem (s : List Char) : lowerStr (lowerStr s) = lowerStr s := by
  show (s.map lowerCh).map lowerCh = s.map lowerCh
  rw [List.map_map]
  exact List.map_congr_left (fun c _ => lowerCh_idem c)

theorem pyIsdigit_lower (p : List Char) : pyIsdigit (lowerStr p) = pyIsdigit p := by
  show (!(p.map lowerCh).isEmpty && (p.map lowerCh).all pyIsDigitChar) =
    (!p.isEmpty && p.all pyIsDigitChar)
  rw [isEmpty_map, List.all_map]
  have hfun : (pyIsDigitChar ∘ lowerCh) = pyIsDigitChar := funext lowerCh_isDigit
  rw [hfun]

theorem lowerStr_digit_fix {v : List Char} (hv : pyIsdigit v = true) :
    lowerStr v = v := by
  rw [pyIsdigit, Bool.and_eq_true] at hv
  have h2 : v.map lowerCh = v.map id :=
    List.map_congr_left
      (fun c hc => lowerCh_digit_fix (List.all_eq_true.mp hv.2 c hc))
  show v.map lowerCh = v
  rw [h2, List.map_id]

theorem lowerStr_beq_digit {w : List Char} (hw : pyIsdigit w = true)
    (p : List Char) : (lowerStr p == lowerStr w) = (p == w) := by
  rw [lowerStr_digit_fix hw]
  cases hpw : (p == w) with
  | true =>
      have : p = w := eq_of_beq hpw
      subst this
      rw [lowerStr_digit_fix hw]
      exact beq_self_eq_true _
  | false =>
      rw [beq_eq_false_iff_ne]
      intro he
      have h1 : pyIsdigit (lowerStr p) = true := by rw [he]; exact hw
      rw [pyIsdigit_lower] at h1
      have h2 : lowerStr p = p := lowerStr_digit_fix h1
      rw [h2] at he
      subst he
      simp at hpw

theorem takeWhile_lower (p : Char → Bool) (hp : ∀ c, p (lowerCh c) = p c)
    (l : List Char) :
    (l.map lowerCh).takeWhile p = (l.takeWhile p).map lowerCh := by
  rw [List.takeWhile_map]
  have h : p ∘ lowerCh = p := funext hp
  rw [h]

theorem dropWhile_lower (p : Char → Bool) (hp : ∀ c, p (lowerCh c) = p c)
    (l : List Char) :
    (l.map lowerCh).dropWhile p = (l.dropWhile p).map lowerCh := by
  rw [List.dropWhile_map]
  have h : p ∘ lowerCh = p := funext hp
  rw [h]

theorem all_lower (p : Char → Bool) (hp : ∀ c, p (lowerCh c) = p c)
    (l : List Char) : (l.map lowerCh).all p = l.all p := by
  rw [List.all_map]
  have h : p ∘ lowerCh = p := funext hp
  rw [h]

theorem pyBasename_lower (s : List Char) :
    pyBasename (lowerStr s) = lowerStr (pyBasename s) := by
  unfold pyBasename lowerStr
  rw [← List.map_reverse,
    takeWhile_lower _ (fun c => by
      rw [lowerCh_beq_fixed c '/' (by decide) (by decide)]),
    List.map_reverse]

theorem pySplitextStem_lower (s : List Char) :
    pySplitextStem (lowerStr s) = lowerStr (pySplitextStem s) := by
  unfold pySplitextStem
  have hrev : (lowerStr s).reverse = (s.reverse).map lowerCh := by
    unfold lowerStr
    rw [List.map_reverse]
  have hdot : ∀ c, (!(lowerCh c == '.')) = (!(c == '.')) := fun c => by
    rw [lowerCh_beq_fixed c '.' (by decide) (by decide)]
  have hext : ((lowerStr s).reverse).takeWhile (fun c => !(c == '.')) =
      ((s.reverse).takeWhile (fun c => !(c == '.'))).map lowerCh := by
    rw [hrev, takeWhile_lower _ hdot]
  rw [hext, hrev]
  simp only [List.length_map]
  by_cases hlen :
      (((s.reverse).takeWhile (fun c => !(c == '.'))).length == s.reverse.length) = true
  · rw [if_pos hlen, if_pos hlen]
  · rw [if_neg hlen, if_neg hlen]
    rw [← List.map_drop]
    have hdoteq : ∀ c, (lowerCh c == '.') = (c == '.') := fun c =>
      lowerCh_beq_fixed c '.' (by decide) (by decide)
    rw [all_lower _ hdoteq]
    by_cases hall :
        (((s.reverse).drop
          (((s.reverse).takeWhile (fun c => !(c == '.'))).length + 1)).all
            (fun c => c == '.')) = true
    · rw [if_pos hall, if_pos hall]
    · rw [if_neg hall, if_neg hall]
      show (List.map lowerCh _).reverse = (List.reverse _).map lowerCh
      rw [List.map_reverse]

theorem stemOfPath_lower (p : List Char) :
    stemOfPath (lowerStr p) = lowerStr (stemOfPath p) := by
  unfold stemOfPath
  rw [pyBasename_lower, pySplitextStem_lower]

theorem endsWithDash2_lower (st : List Char) :
    endsWithDash2 (lowerStr st) = endsWithDash2 st := by
  unfold endsWithDash2
  have hrev : (lowerStr st).reverse = (st.reverse).map lowerCh := by
    unfold lowerStr
    rw [List.map_reverse]
  rw [hrev]
  cases st.reverse with
  | nil => rfl
  | cons c tl =>
      cases tl with
      | nil => rfl
      | cons d tl2 =>
          simp only [List.map_cons]
          rw [lowerCh_beq_fixed c '2' (by decide) (by decide),
            lowerCh_beq_fixed d '-' (by decide) (by decide)]

theorem stripDup2_lower (st : List Char) :
    stripDup2 (lowerStr st) = lowerStr (stripDup2 st) := by
  unfold stripDup2
  rw [endsWithDash2_lower]
  by_cases h : endsWithDash2 st = true
  · rw [if_pos h, if_pos h]
    show (st.map lowerCh).take ((st.map lowerCh).length - 2) = (st.take (st.length - 2)).map lowerCh
    rw [List.length_map, List.map_take]
  · rw [if_neg h, if_neg h]

theorem consHead_map (c : Char) (ls : List (List Char)) :
    consHead (lowerCh c) (ls.map lowerStr) = (consHead c ls).map lowerStr := by
  cases ls <;> rfl

theorem splitSepsAux_lower :
    ∀ (st : List Char) (b : Bool),
      splitSepsAux b (lowerStr st) = (splitSepsAux b st).map lowerStr := by
  intro st
  induction st with
  | nil => intro b; cases b <;> rfl
  | cons c cs ih =>
      intro b
      show splitSepsAux b (lowerCh c :: lowerStr cs) =
        (splitSepsAux b (c :: cs)).map lowerStr
      cases b with
      | false =>
          rw [splitSepsAux, splitSepsAux, lowerCh_sep]
          by_cases hc : isSepChar c = true
          · rw [if_pos hc, if_pos hc, List.map_cons]
            exact congrArg _ (ih true)
          · rw [if_neg hc, if_neg hc, ih false, consHead_map]
      | true =>
          rw [splitSepsAux, splitSepsAux, lowerCh_sep]
          by_cases hc : isSepChar c = true
          · rw [if_pos hc, if_pos hc]
            exact ih true
          · rw [if_neg hc, if_neg hc, ih false, consHead_map]

theorem splitSeps_lower (st : List Char) :
    splitSeps (lowerStr st) = (splitSeps st).map lowerStr :=
  splitSepsAux_lower st false

theorem findIdent_lower (parts : List (List Char)) :
    findIdent (parts.map lowerStr) = (findIdent parts).map lowerStr := by
  unfold findIdent
  rw [← List.map_reverse, List.find?_map]
  have h : (pyIsdigit ∘ lowerStr) = fun p => pyIsdigit p := funext pyIsdigit_lower
  rw [h]
  cases hf : parts.reverse.find? (fun p => pyIsdigit p) with
  | none =>
      show (parts.map lowerStr).getLast? = Option.map lowerStr parts.getLast?
      rw [List.getLast?_map]
  | some w => rfl

theorem findIdent_cases {parts : List (List Char)} {w : List Char}
    (h : findIdent parts = some w) :
    pyIsdigit w = true ∨ parts.getLast? = some w := by
  rw [findIdent] at h
  cases hf : parts.reverse.find? (fun p => pyIsdigit p) with
  | some p =>
      rw [hf] at h
      have hpw : p = w := Option.some.inj h
      left
      rw [← hpw]
      exact List.find?_some hf
  | none =>
      rw [hf] at h
      right
      exact h

theorem beq_some_some (a b : List Char) : (some a == some b) = (a == b) := rfl

theorem collPartsOf_lower (parts : List (List Char)) :
    collPartsOf (parts.map lowerStr) ((findIdent parts).map lowerStr) =
      (collPartsOf parts (findIdent parts)).map lowerStr := by
  cases hi : findIdent parts with
  | none => rfl
  | some w =>
      by_cases hw : w.isEmpty = true
      · have hwnil : w = [] := by
          cases w with
          | nil => rfl
          | cons c cs => simp at hw
        subst hwnil
        rfl
      · have hw' : (lowerStr w).isEmpty = false := by
          rw [lowerStr, isEmpty_map]
          cases hwe : w.isEmpty with
          | true => exact absurd hwe hw
          | false => rfl
        have hwe : w.isEmpty = false := by
          cases hwe2 : w.isEmpty with
          | true => exact absurd hwe2 hw
          | false => rfl
        have hA : ((parts.map lowerStr).getLast? == some (lowerStr w)) =
            (parts.getLast? == some w) := by
          rw [List.getLast?_map]
          cases hg : parts.getLast? with
          | none => rfl
          | some v =>
              show (some (lowerStr v) == some (lowerStr w)) = (some v == some w)
              rw [beq_some_some, beq_some_some]
              rcases findIdent_cases hi with hdig | hlast
              · exact lowerStr_beq_digit hdig v
              · have hvw : v = w := Option.some.inj (hg ▸ hlast)
                subst hvw
                rw [beq_self_eq_true, beq_self_eq_true]
        rw [show (some w).map lowerStr = some (lowerStr w) from rfl]
        rw [collPartsOf, collPartsOf]
        simp only [Option.getD_some]
        rw [hA, hw', hwe, isEmpty_map]
        by_cases h1 : (!false && !parts.isEmpty && (parts.getLast? == some w)) = true
        · rw [if_pos h1, if_pos h1]
          exact dropLast_map_comm lowerStr parts
        · rw [if_neg h1, if_neg h1,
            if_pos (by decide : ((!false : Bool)) = true),
            if_pos (by decide : ((!false : Bool)) = true)]
          rcases findIdent_cases hi with hdig | hlast
          · rw [List.filter_map]
            have hfun : ((fun p => !(p == lowerStr w)) ∘ lowerStr) =
                (fun p => !(p == w)) := by
              funext p
              show (!(lowerStr p == lowerStr w)) = !(p == w)
              rw [lowerStr_beq_digit hdig p]
            rw [hfun]
          · exfalso
            apply h1
            cases parts with
            | nil => exact Option.noConfusion hlast
            | cons p ps =>
                rw [hlast]
                simp

theorem joinWithSpace_lower :
    ∀ cps : List (List Char),
      joinWithSpace (cps.map lowerStr) = lowerStr (joinWithSpace cps) := by
  intro cps
  induction cps with
  | nil => rfl
  | cons p tail ih =>
      cases tail with
      | nil => rfl
      | cons q rest =>
          show lowerStr p ++ ' ' :: joinWithSpace ((q :: rest).map lowerStr) = _
          rw [ih]
          show _ = (p ++ ' ' :: joinWithSpace (q :: rest)).map lowerCh
          rw [List.map_append, List.map_cons]
          rfl

theorem pyStrip_lower (s : List Char) :
    pyStrip (lowerStr s) = lowerStr (pyStrip s) := by
  unfold pyStrip
  have hsp : ∀ c, isSpaceChar (lowerCh c) = isSpaceChar c := lowerCh_space
  show ((((s.map lowerCh).dropWhile isSpaceChar).reverse).dropWhile
      isSpaceChar).reverse = _
  rw [dropWhile_lower _ hsp, ← List.map_reverse, dropWhile_lower _ hsp]
  show (List.map lowerCh _).reverse = (List.reverse _).map lowerCh
  rw [List.map_reverse]

theorem captionOf_lower (stem : List Char) (ident : Option (List Char)) :
    captionOf (lowerStr stem) (ident.map lowerStr) =
      lowerStr (captionOf stem ident) := by
  cases ident with
  | none => rfl
  | some v =>
      rw [show (some v).map lowerStr = some (lowerStr v) from rfl]
      rw [captionOf, captionOf]
      rw [show (lowerStr v).isEmpty = v.isEmpty from isEmpty_map lowerCh v]
      rw [pyIsdigit_lower]
      have hdw : (lowerStr v).dropWhile (fun c => c == '0') =
          lowerStr (v.dropWhile (fun c => c == '0')) := by
        show (v.map lowerCh).dropWhile _ = _
        rw [dropWhile_lower _ (fun c =>
          lowerCh_beq_fixed c '0' (by decide) (by decide))]
        rfl
      by_cases h1 : (!v.isEmpty && pyIsdigit v) = true
      · rw [if_pos h1, if_pos h1, hdw,
          show (lowerStr (v.dropWhile (fun c => c == '0'))).isEmpty =
            (v.dropWhile (fun c => c == '0')).isEmpty from isEmpty_map _ _]
        by_cases h2 : (v.dropWhile (fun c => c == '0')).isEmpty = true
        · rw [if_pos h2, if_pos h2]
        · rw [if_neg h2, if_neg h2]
      · rw [if_neg h1, if_neg h1]
        by_cases h2 : (!v.isEmpty) = true
        · rw [if_pos h2, if_pos h2]
        · rw [if_neg h2, if_neg h2]

theorem parseCore_lower (stem : List Char) :
    (parseCore (lowerStr stem)).group_key = (parseCore stem).group_key := by
  have hsplit := splitSeps_lower stem
  have hident := findIdent_lower (splitSeps stem)
  have hcoll := collPartsOf_lower (splitSeps stem)
  have hjoin := joinWithSpace_lower (collPartsOf (splitSeps stem)
    (findIdent (splitSeps stem)))
  show (lowerStr (if (pyStrip (joinWithSpace (collPartsOf
        (splitSeps (lowerStr stem)) (findIdent (splitSeps (lowerStr stem)))))).isEmpty
      then lowerStr stem
      else pyStrip (joinWithSpace (collPartsOf (splitSeps (lowerStr stem))
        (findIdent (splitSeps (lowerStr stem)))))),
    lowerStr (captionOf (lowerStr stem) (findIdent (splitSeps (lowerStr stem))))) =
    ((lowerStr (if (pyStrip (joinWithSpace (collPartsOf (splitSeps stem)
        (findIdent (splitSeps stem))))).isEmpty then stem
      else pyStrip (joinWithSpace (collPartsOf (splitSeps stem)
        (findIdent (splitSeps stem)))))),
     lowerStr (captionOf stem (findIdent (splitSeps stem))))
  rw [hsplit, hident, hcoll, hjoin, pyStrip_lower]
  rw [show (lowerStr (pyStrip (joinWithSpace (collPartsOf (splitSeps stem)
      (findIdent (splitSeps stem)))))).isEmpty =
    (pyStrip (joinWithSpace (collPartsOf (splitSeps stem)
      (findIdent (splitSeps stem))))).isEmpty from isEmpty_map _ _]
  rw [captionOf_lower]
  by_cases h1 : (pyStrip (joinWithSpace (collPartsOf (splitSeps stem)
      (findIdent (splitSeps stem))))).isEmpty = true
  · rw [if_pos h1, if_pos h1, lowerStr_idem, lowerStr_idem]
  · rw [if_neg h1, if_neg h1, lowerStr_idem, lowerStr_idem]

theorem parse_file_info_lower (path : List Char) :
    (parse_file_info (lowerStr path)).group_key =
      (parse_file_info path).group_key := by
  unfold parse_file_info parseStem
  rw [stemOfPath_lower, stripDup2_lower]
  exact parseCore_lower _

theorem endsWithDash2_append (st : List Char) :
    endsWithDash2 (st ++ ['-', '2']) = true := by
  rw [endsWithDash2, List.reverse_append]
  rfl

theorem stripDup2_append (st : List Char) : stripDup2 (st ++ ['-', '2']) = st := by
  rw [stripDup2, if_pos (endsWithDash2_append st), List.length_append]
  show (st ++ ['-', '2']).take (st.length + 2 - 2) = st
  have h2 : st.length + 2 - 2 = st.length := by omega
  rw [h2]
  exact List.take_left st ['-', '2']

theorem stripDup2_of_not {st : List Char} (h : endsWithDash2 st = false) :
    stripDup2 st = st := by
  rw [stripDup2, h]
  simp

theorem parseStem_caption_digit {st d : List Char}
    (hnum : (parseStem st).number = some d) (hd : pyIsdigit d = true) :
    (parseStem st).caption =
      (if (d.dropWhile (fun c => c == '0')).isEmpty then d
       else d.dropWhile (fun c => c == '0')) := by
  have hcap : (parseStem st).caption =
      captionOf (stripDup2 st) (findIdent (splitSeps (stripDup2 st))) := rfl
  have hnum' : findIdent (splitSeps (stripDup2 st)) = some d := hnum
  rw [hcap, hnum']
  have hne : d.isEmpty = false := by
    rw [pyIsdigit, Bool.and_eq_true] at hd
    cases hie : d.isEmpty with
    | true => rw [hie] at hd; simp at hd
    | false => rfl
  rw [captionOf]
  rw [if_pos (by rw [hne, hd]; rfl :
    ((!d.isEmpty && pyIsdigit d) = true))]

/-- C5 counterexample: three divergences from the claimed general invariance.
Leading-zero insensitivity fails on all-zero identifiers: `Name-0.jpg` and
`Name-00.jpg` get different group keys.  `-2`-suffix insensitivity fails on a
stem that already ends in `-2`: `N-2.jpg` and `N-2-2.jpg` get different group
keys.  Leading zeros can also change the collection component itself: in
`123-123-b.jpg` the identifier `123` filters both `123` parts out of the
collection (key `("b", "123")`), while in `123-00123-b.jpg` the identifier
`00123` leaves the `123` part in place (key `("123 b", "123")`). -/
theorem claim5_counterexample :
    (parse_file_info "Name-0.jpg".data).group_key ≠
      (parse_file_info "Name-00.jpg".data).group_key
    ∧ (parse_file_info "N-2.jpg".data).group_key ≠
      (parse_file_info "N-2-2.jpg".data).group_key
    ∧ (parse_file_info "123-123-b.jpg".data).group_key ≠
      (parse_file_info "123-00123-b.jpg".data).group_key := by
  decide

/-- C5 amended: `Name-123.jpg` and `name-00123-2.jpg` share a group key.  In
general the group key is invariant under letter case; it is invariant under
appending a `-2` suffix provided the stem does not already end in `-2`; and
leading zeros on the numeric identifier do not affect the group key provided
a nonzero digit remains and the two parses agree on the collection component
of the key (zero-padding can change the collection itself, since the
collection filters out parts equal to the identifier). -/
theorem claim5_group_key_invariance :
    (parse_file_info "Name-123.jpg".data).group_key =
      (parse_file_info "name-00123-2.jpg".data).group_key
    ∧ (∀ path : List Char,
        (parse_file_info (lowerStr path)).group_key =
          (parse_file_info path).group_key)
    ∧ (∀ st : List Char, endsWithDash2 st = false →
        (parseStem (st ++ ['-', '2'])).group_key = (parseStem st).group_key)
    ∧ (∀ st1 st2 d1 d2 : List Char,
        (parseStem st1).number = some d1 → pyIsdigit d1 = true →
        (parseStem st2).number = some d2 → pyIsdigit d2 = true →
        d1.dropWhile (fun c => c == '0') = d2.dropWhile (fun c => c == '0') →
        (d1.dropWhile (fun c => c == '0')).isEmpty = false →
        (parseStem st1).group_key.1 = (parseStem st2).group_key.1 →
        (parseStem st1).group_key = (parseStem st2).group_key) := by
  refine ⟨by decide, parse_file_info_lower, ?_, ?_⟩
  · intro st h
    rw [parseStem, parseStem, stripDup2_append, stripDup2_of_not h]
  · intro st1 st2 d1 d2 h1 hd1 h2 hd2 hz hne hkey1
    have hc1 : (parseStem st1).caption = d1.dropWhile (fun c => c == '0') := by
      rw [parseStem_caption_digit h1 hd1, if_neg (by rw [hne]; simp)]
    have hc2 : (parseStem st2).caption = d2.dropWhile (fun c => c == '0') := by
      rw [hz] at hne
      rw [parseStem_caption_digit h2 hd2, if_neg (by rw [hne]; simp)]
    have hcap : (parseStem st1).caption = (parseStem st2).caption := by
      rw [hc1, hc2, hz]
    have hsnd1 : (parseStem st1).group_key.2 =
        lowerStr ((parseStem st1).caption) := rfl
    have hsnd2 : (parseStem st2).group_key.2 =
        lowerStr ((parseStem st2).caption) := rfl
    have hsnd : (parseStem st1).group_key.2 = (parseStem st2).group_key.2 := by
      rw [hsnd1, hsnd2, hcap]
    exact Prod.ext hkey1 hsnd

theorem claim5_group_key_invariance_witness :
    endsWithDash2 "Name-123".data = false
    ∧ (parseStem ("Name-123".data ++ ['-', '2'])).group_key =
        (parseStem "Name-123".data).group_key
    ∧ (parseStem "Name-123".data).number = some "123".data
    ∧ pyIsdigit "123".data = true
    ∧ (parseStem "Name-00123".data).number = some "00123".data
    ∧ pyIsdigit "00123".data = true
    ∧ "123".data.dropWhile (fun c => c == '0') =
        "00123".data.dropWhile (fun c => c == '0')
    ∧ ("123".data.dropWhile (fun c => c == '0')).isEmpty = false
    ∧ (parseStem "Name-123".data).group_key.1 =
        (parseStem "Name-00123".data).group_key.1
    ∧ (parseStem "Name-123".data).group_key =
        (parseStem "Name-00123".data).group_key :=
  ⟨by decide, claim5_group_key_invariance.2.2.1 _ (by decide),
   by decide, by decide, by decide, by decide, by decide, by decide, by decide,
   claim5_group_key_invariance.2.2.2 "Name-123".data "Name-00123".data
     "123".data "00123".data (by decide) (by decide) (by decide) (by decide)
     (by decide) (by decide) (by decide)⟩

end Collages
